import Mathlib

/-!
Verification development for the `mudslide` (fssh) surface-hopping code.

This file gives a shallow embedding, in Lean 4, of the parts of
`fssh/trajectory_sh.py` and `fssh/even_sampled_sh.py` that the frozen claims
are about, together with theorems settling those claims.

Conventions used throughout the embedding:
* numpy float arrays become functions `Fin nd → ℝ` (or `ℚ` for the purely
  discrete bookkeeping code, where exact evaluation by `decide` is possible);
  all arithmetic is exact (the claims are stated over exact real arithmetic);
* fallible code (numpy exceptions, Python `raise`, complex roots leaking into
  a float array) becomes `Option`/`Except`;
* Python `None` becomes `Option.none`;
* in-place numpy mutation is made explicit by returning the new value.
-/

namespace Mudslide

open scoped Matrix

/-! ### SpawnStack (`even_sampled_sh.py`)

A node of the sample forest: the Python dict `{ "zeta" : s, "dw" : dw,
"children" : c }` where `c` is `None` or a list of nodes. -/

inductive SampleNode (α : Type) : Type
  | mk : α → α → Option (List (SampleNode α)) → SampleNode α

/-- Field accessor for the `"zeta"` entry of a sample node. -/
def SampleNode.zeta {α : Type} : SampleNode α → α
  | .mk z _ _ => z

/-- Field accessor for the `"dw"` entry of a sample node. -/
def SampleNode.dw {α : Type} : SampleNode α → α
  | .mk _ d _ => d

/-- Field accessor for the `"children"` entry of a sample node. -/
def SampleNode.children {α : Type} : SampleNode α → Option (List (SampleNode α))
  | .mk _ _ c => c

/-- Embedding of `SpawnStack.__init__`: fields `sample_stack`, `weight` and the
cursor fields `izeta`, `zeta`, both initialized to `None`. -/
structure SpawnStack (α : Type) where
  sample_stack : Option (List (SampleNode α))
  weight : α
  izeta : Option ℕ
  zeta : Option α

/-- Embedding of `SpawnStack.next_zeta`.  The Python method mutates `izeta`
and `zeta` and returns the new `zeta`; we return the pair (new zeta, new
stack).  When the stack holds no tree (`sample_stack is None`) the source
draws `random_state.uniform()`; that draw is passed in as `rand`.  Running
past the end of the sample list raises in Python, which is `none` here. -/
def SpawnStack.next_zeta {α : Type} (s : SpawnStack α) (rand : α) :
    Option (α × SpawnStack α) :=
  match s.sample_stack with
  | some l =>
    let i : ℕ := match s.izeta with
      | none => 0
      | some j => j + 1
    if h : i < l.length then
      let z := (l.get ⟨i, h⟩).zeta
      some (z, { s with izeta := some i, zeta := some z })
    else
      none
  | none => some (rand, { s with zeta := some rand })

/-- Embedding of `SpawnStack.spawn`.  Python truthiness: `if self.sample_stack:`
takes the main branch only for a non-`None`, non-empty list; `None` and `[]`
both fall to the weight-only branch.  An unpositioned cursor (`izeta is None`,
a `TypeError` in Python) or an out-of-range cursor (`IndexError`) is `none`.
The returned stack is a fresh object, so its cursor fields are `None`. -/
def SpawnStack.spawn {α : Type} [Mul α] (s : SpawnStack α) : Option (SpawnStack α) :=
  match s.sample_stack with
  | some l =>
    if l.isEmpty then
      some ⟨none, s.weight, none, none⟩
    else
      match s.izeta with
      | none => none
      | some i =>
        match l[i]? with
        | some samp => some ⟨samp.children, s.weight * samp.dw, none, none⟩
        | none => none
  | none => some ⟨none, s.weight, none, none⟩

/-- Helper describing one step of a descendant chain: position the cursor at
index `i` (as `next_zeta` would have left it) and spawn. -/
def SpawnStack.spawn_at {α : Type} [Mul α] (s : SpawnStack α) (i : ℕ) :
    Option (SpawnStack α) :=
  SpawnStack.spawn { s with izeta := some i }

/-- Iterated spawning along a path of cursor positions, giving an arbitrary
descendant of a stack. -/
def SpawnStack.spawn_path {α : Type} [Mul α] (s : SpawnStack α) :
    List ℕ → Option (SpawnStack α)
  | [] => some s
  | i :: rest =>
    match s.spawn_at i with
    | some t => t.spawn_path rest
    | none => none

/-- The product of the `dw` values read off along a cursor path, mirroring the
branch structure of `SpawnStack.spawn` (a missing or empty tree contributes
factor 1, an out-of-range index is an error). -/
def dw_product {α : Type} [Mul α] [One α] :
    Option (List (SampleNode α)) → List ℕ → Option α
  | _, [] => some 1
  | none, _ :: rest => dw_product none rest
  | some l, i :: rest =>
    if l.isEmpty then dw_product none rest
    else
      match l[i]? with
      | some samp => (dw_product samp.children rest).map (fun w => samp.dw * w)
      | none => none

/-! ### build_simple -/

/-- Embedding of `np.linspace(start, stop, num, endpoint)`: `num` evenly spaced
values starting at `start`; with `endpoint=False` the step is
`(stop - start)/num`, with `endpoint=True` it is `(stop - start)/(num - 1)`. -/
def linspace {α : Type} [Field α] (start stop : α) (num : ℕ) (endpoint : Bool) :
    List α :=
  let d : ℕ := if endpoint then num - 1 else num
  let step := (stop - start) / (d : α)
  (List.range num).map (fun k => start + step * (k : α))

/-- Embedding of `SpawnStack.build_simple`.  `np.sort` is modelled by
insertion sort (ascending).  `dw = samples[1] - samples[0]` raises an
`IndexError` when fewer than two samples exist, hence the `Option`.  The
`for d in range(1, sample_depth)` loop nests a deep copy of the previous
forest under every node, `sample_depth - 1` times. -/
def SpawnStack.build_simple {α : Type} [Field α] [LinearOrder α]
    (nsamples sample_depth : ℕ) (include_first : Bool) :
    Option (SpawnStack α) :=
  let samples := (linspace (1 : α) 0 nsamples include_first).insertionSort (· ≤ ·)
  match samples with
  | s0 :: s1 :: _ =>
    let dw := s1 - s0
    let forest0 := samples.map (fun s => SampleNode.mk s dw none)
    let forest := (List.range (sample_depth - 1)).foldl
      (fun f _ => samples.map (fun s => SampleNode.mk s dw (some f))) forest0
    some ⟨some forest, 1, none, none⟩
  | _ => none

/-! ### Duration / termination state machine (`trajectory_sh.py`) -/

/-- The `duration` dictionary built by `TrajectorySH.duration_initialize`. -/
structure Duration (nd : ℕ) where
  found_box : Bool
  box_bounds : Option ((Fin nd → ℚ) × (Fin nd → ℚ))
  max_steps : ℕ
  max_time : ℚ

/-- Embedding of `TrajectorySH.currently_interacting`: strictly inside the
bounding box in every dimension; `False` when no box is configured. -/
def currently_interacting {nd : ℕ} (dur : Duration nd) (position : Fin nd → ℚ) :
    Bool :=
  match dur.box_bounds with
  | none => false
  | some b => decide (∀ i, b.1 i < position i) && decide (∀ i, position i < b.2 i)

/-- Embedding of `TrajectorySH.continue_simulating`.  The method both returns
the decision and (in the not-yet-found branch) latches `found_box`; we return
the pair (decision, updated duration state). -/
def continue_simulating {nd : ℕ} (dur : Duration nd) (nsteps : ℕ) (time : ℚ)
    (position : Fin nd → ℚ) : Bool × Duration nd :=
  if dur.max_steps < nsteps ∨ dur.max_time < time then
    (false, dur)
  else if dur.found_box then
    (currently_interacting dur position, dur)
  else if currently_interacting dur position then
    (true, { dur with found_box := true })
  else
    (true, dur)

/-! ### Initial-state handling in `TrajectorySH.__init__` -/

/-- The `rho0` argument of the constructor: a scalar (in practice the string
`"ground"`) or an explicit density matrix. -/
inductive Rho0 (ns : ℕ)
  | scalar (s : String)
  | matrix (m : Matrix (Fin ns) (Fin ns) ℂ)

/-- The quantum-state attributes the constructor is supposed to set; a missing
attribute (never assigned in Python) is `none`. -/
structure InitQuantum (ns : ℕ) where
  rho : Option (Matrix (Fin ns) (Fin ns) ℂ)
  state : Option ℕ

/-- Density matrix for the `"ground"` branch: `np.zeros` with `rho[0,0] = 1`. -/
def ground_rho (ns : ℕ) : Matrix (Fin ns) (Fin ns) ℂ :=
  Matrix.of fun i j => if i.val = 0 ∧ j.val = 0 then 1 else 0

/-- Embedding of the initial-state branch of `TrajectorySH.__init__`.
Faithful to the source, including its slip: in the unrecognized-scalar branch
the source evaluates `Exception("Unrecognized initial state option")` without
`raise`, so construction continues with `self.rho` and `self.state` never
assigned — here `.ok ⟨none, none⟩`, not `.error`.  The matrix branch with a
missing/unparsable `state0` does `raise`, hence `.error`. -/
def init_quantum (ns : ℕ) (rho0 : Rho0 ns) (state0 : Option ℕ) :
    Except String (InitQuantum ns) :=
  match rho0 with
  | .scalar s =>
    if s == ("ground") then
      .ok ⟨some (ground_rho ns), some 0⟩
    else
      .ok ⟨none, none⟩
  | .matrix m =>
    match state0 with
    | some k => .ok ⟨some m, some k⟩
    | none => .error ("Unrecognized initial state option")

/-! ### Electronic structure and trajectory state (`trajectory_sh.py`)

Vectors over the `ndim` classical degrees of freedom are `Fin nd → ℝ`, the
density matrix is an `ns × ns` complex matrix.  All arithmetic is exact real
arithmetic, as the claims are stated. -/

noncomputable section

/-- The snapshot returned by `model.update(position)` (spec section 6):
Hamiltonian, per-state force, and the derivative-coupling tensor
`derivative_coupling[i, j, :]`. -/
structure ElectronicStructure (ns nd : ℕ) where
  hamiltonian : Matrix (Fin ns) (Fin ns) ℝ
  force : Matrix (Fin ns) (Fin nd) ℝ
  derivative_coupling : Fin ns → Fin ns → Fin nd → ℝ

/-- Embedding of `TrajectorySH.kinetic_energy`:
`0.5 * einsum('m,m,m', mass, velocity, velocity)`. -/
def kinetic_energy {nd : ℕ} (mass velocity : Fin nd → ℝ) : ℝ :=
  0.5 * ∑ i, mass i * velocity i * velocity i

/-- Embedding of `TrajectorySH.potential_energy`: the active-state diagonal
entry of the Hamiltonian. -/
def potential_energy {ns nd : ℕ} (es : ElectronicStructure ns nd)
    (state : Fin ns) : ℝ :=
  es.hamiltonian state state

/-- Embedding of `TrajectorySH.mode_kinetic_energy`: kinetic energy along the
unit vector `u = direction/‖direction‖`, with `‖direction‖ = √(Σ directionⱼ²)`
(`np.linalg.norm`), `momentum = velocity * mass`,
`component = (u·momentum) u`, result `0.5 * einsum('m,m,m', 1/mass,
component, component)`. -/
def mode_kinetic_energy {nd : ℕ} (mass velocity direction : Fin nd → ℝ) : ℝ :=
  let u := fun i => direction i / Real.sqrt (∑ j, direction j * direction j)
  let momentum := fun i => velocity i * mass i
  let component := fun i => (∑ j, u j * momentum j) * u i
  0.5 * ∑ i, (1 / mass i) * component i * component i

/-- Embedding of `TrajectorySH.direction_of_rescale`: the row
`derivative_coupling[source, target, :]`.  In numpy this is a VIEW into the
electronic-structure tensor, so writing to it (as `rescale_component` does)
writes into the snapshot; the embedding keeps the data flow explicit. -/
def direction_of_rescale {ns nd : ℕ} (es : ElectronicStructure ns nd)
    (source target : Fin ns) : Fin nd → ℝ :=
  es.derivative_coupling source target

/-- Model of `roots = np.roots([a, b, c]); scal = min(roots, key=abs)` from
`TrajectorySH.rescale_component`.  For a negative discriminant the two roots
are complex conjugates; `min` would then hand a complex scalar to the
in-place float update `self.velocity += ...`, a fatal numpy type error, so
that case is `none`.  When both roots have the same magnitude (`b = 0` or a
double root) `np.roots`'s ordering is unspecified; we fix the `+√` root —
no claim depends on the tie choice. -/
def quad_scal (a b c : ℝ) : Option ℝ :=
  if b ^ 2 - 4 * a * c < 0 then none
  else
    some
      (if |(-b + Real.sqrt (b ^ 2 - 4 * a * c)) / (2 * a)|
          ≤ |(-b - Real.sqrt (b ^ 2 - 4 * a * c)) / (2 * a)|
       then (-b + Real.sqrt (b ^ 2 - 4 * a * c)) / (2 * a)
       else (-b - Real.sqrt (b ^ 2 - 4 * a * c)) / (2 * a))

/-- Embedding of `TrajectorySH.rescale_component(direction, reduction)`.
Line by line: `direction /= sqrt(dot(direction, direction))` normalizes the
direction IN PLACE (through the numpy view handed over by
`direction_of_rescale`); `a = einsum('m,m,m', 1/mass, direction, direction)`;
`b = 2 * dot(velocity, direction)`; `c = -2 * reduction`;
`scal = min(np.roots([a,b,c]), key=abs)`;
`velocity += scal * (1/mass) * direction`.  The result is the pair (new
velocity, normalized direction as written back through the view). -/
def rescale_component {nd : ℕ} (mass velocity direction : Fin nd → ℝ)
    (reduction : ℝ) : Option ((Fin nd → ℝ) × (Fin nd → ℝ)) :=
  (quad_scal
      (∑ i, (1 / mass i)
        * (direction i / Real.sqrt (∑ j, direction j * direction j))
        * (direction i / Real.sqrt (∑ j, direction j * direction j)))
      (2 * ∑ i, velocity i
        * (direction i / Real.sqrt (∑ j, direction j * direction j)))
      (-2 * reduction)).map
    (fun scal =>
      (fun i => velocity i + scal * (1 / mass i)
          * (direction i / Real.sqrt (∑ j, direction j * direction j)),
       fun i => direction i / Real.sqrt (∑ j, direction j * direction j)))

/-- The velocity rescale exactly as claim C2 words it: solve
`a s² + b s + c = 0` with `a = Σ direction²/mass`, `b = 2 (velocity·direction)`
and `c = -2 ΔV` (ΔV = target potential - source potential), select the real
root of smallest magnitude, and update `velocity += s * direction / mass`. -/
def rescale_component_claim {nd : ℕ} (mass velocity direction : Fin nd → ℝ)
    (deltaV : ℝ) : Option (Fin nd → ℝ) :=
  (quad_scal (∑ i, direction i * direction i / mass i)
      (2 * ∑ i, velocity i * direction i)
      (-2 * deltaV)).map
    (fun scal => fun i => velocity i + scal * direction i / mass i)

/-- The claim C2 rescale with the sign of `c` corrected to what the source
computes: `hop_to_it` passes `reduction = -ΔV`, so `c = -2·reduction = 2 ΔV`. -/
def rescale_component_amended {nd : ℕ} (mass velocity direction : Fin nd → ℝ)
    (deltaV : ℝ) : Option (Fin nd → ℝ) :=
  (quad_scal (∑ i, direction i * direction i / mass i)
      (2 * ∑ i, velocity i * direction i)
      (2 * deltaV)).map
    (fun scal => fun i => velocity i + scal * direction i / mass i)

/-- Embedding of `TrajectorySH.hop_to_it` for a single hop target.
`delV = H[target,target] - H[active,active]`; the rescale direction is the
coupling row (a view!); if `delV <= mode_kinetic_energy(direction)` the state
changes and `rescale_component(rescale_vector, -delV)` runs, whose in-place
normalization rewrites `derivative_coupling[source, target, :]`; otherwise
the hop is silently rejected and nothing changes.  Result: (new active state,
new velocity, electronic structure after the in-place write), or `none` on
the fatal complex-roots path. -/
def hop_to_it {ns nd : ℕ} (mass : Fin nd → ℝ) (es : ElectronicStructure ns nd)
    (state : Fin ns) (velocity : Fin nd → ℝ) (hop_to : Fin ns) :
    Option (Fin ns × (Fin nd → ℝ) × ElectronicStructure ns nd) :=
  let delV := es.hamiltonian hop_to hop_to - es.hamiltonian state state
  if delV ≤ mode_kinetic_energy mass velocity (direction_of_rescale es state hop_to) then
    match rescale_component mass velocity (direction_of_rescale es state hop_to)
        (-delV) with
    | some (v2, d2) =>
      some (hop_to, v2,
        { es with derivative_coupling := fun i j =>
            if i = state ∧ j = hop_to then d2 else es.derivative_coupling i j })
    | none => none
  else
    some (state, velocity, es)

/-! ### Electronic propagation and the step loop (`trajectory_sh.py`) -/

/-- Embedding of `TrajectorySH.NAC_matrix`:
`einsum("ijx,x->ij", derivative_coupling, velocity)`. -/
def NAC_matrix {ns nd : ℕ} (es : ElectronicStructure ns nd)
    (velo : Fin nd → ℝ) : Matrix (Fin ns) (Fin ns) ℝ :=
  Matrix.of fun i j => ∑ x, es.derivative_coupling i j x * velo x

/-- The hop-probability vector computed by `TrajectorySH.surface_hopping`:
`velo` is the velocity interpolated to the integer step,
`W = NAC_matrix(elec, velo)[state, :]`,
`probs = 2.0 * real(rho[state,:]) * W * dt / real(rho[state,state])`,
then `probs[state] = 0.0` and `probs = maximum(probs, 0.0)`. -/
def surface_hopping_probs {ns nd : ℕ} (es : ElectronicStructure ns nd)
    (rho : Matrix (Fin ns) (Fin ns) ℂ) (state : Fin ns)
    (last_velocity velocity : Fin nd → ℝ) (dt : ℝ) : Fin ns → ℝ :=
  let velo := fun i => 0.5 * (last_velocity i + velocity i)
  let probs0 := fun j =>
    2.0 * (rho state j).re * NAC_matrix es velo state j * dt / (rho state state).re
  let probs1 := Function.update probs0 state 0
  fun j => max (probs1 j) 0

/-- Embedding of `TrajectorySH.hopper` (the stochastic variant):
`acc_prob = cumsum(probs)`, `hops = less(zeta, acc_prob)`, and the hop target
is the first index whose cumulative probability exceeds `zeta` (none if no
index qualifies). -/
def hopper {ns : ℕ} (probs : Fin ns → ℝ) (zeta : ℝ) : Option (Fin ns) :=
  (List.finRange ns).find? (fun i => decide (zeta < ∑ j ∈ Finset.Iic i, probs j))

/-- Embedding of `TrajectorySH.hamiltonian_propagator`:
`W = H - i * NAC_matrix(elec, (last_velocity + velocity)/2)` over ℂ. -/
def hamiltonian_propagator {ns nd : ℕ} (es : ElectronicStructure ns nd)
    (last_velocity velocity : Fin nd → ℝ) : Matrix (Fin ns) (Fin ns) ℂ :=
  Matrix.of fun i j =>
    (es.hamiltonian i j : ℂ)
      - Complex.I
        * (NAC_matrix es (fun k => 0.5 * (last_velocity k + velocity k)) i j : ℂ)

/-- The propagator `U = coeff * diag(exp(-i*diags*dt)) * coeffᴴ` that
`propagate_electronics` builds from `diags, coeff = np.linalg.eigh(W)`
(`np.linalg.multi_dot([coeff, diag(exp(-1j*diags*dt)), coeff.T.conj()])`). -/
def propagator_U {ns : ℕ} (diags : Fin ns → ℝ)
    (coeff : Matrix (Fin ns) (Fin ns) ℂ) (dt : ℝ) : Matrix (Fin ns) (Fin ns) ℂ :=
  coeff * Matrix.diagonal (fun k => Complex.exp (-Complex.I * diags k * dt)) * coeffᴴ

/-- Embedding of the density update in `TrajectorySH.propagate_electronics`:
`rho ← U · (rho · Uᴴ)` (`np.dot(U, np.dot(rho, U.T.conj()))`).  The Hermitian
eigendecomposition `np.linalg.eigh(W)` is an external numerical routine; its
output `(diags, coeff)` is passed in, and the claims hypothesize that it is a
valid Hermitian eigendecomposition (real eigenvalues — enforced by the type —
and orthonormal eigenvectors `coeffᴴ * coeff = 1`). -/
def propagate_electronics {ns : ℕ} (diags : Fin ns → ℝ)
    (coeff : Matrix (Fin ns) (Fin ns) ℂ) (dt : ℝ)
    (rho : Matrix (Fin ns) (Fin ns) ℂ) : Matrix (Fin ns) (Fin ns) ℂ :=
  propagator_U diags coeff dt * (rho * (propagator_U diags coeff dt)ᴴ)

/-- The per-trajectory mutable state of `TrajectorySH` that the step loop
touches. -/
structure Traj (ns nd : ℕ) where
  position : Fin nd → ℝ
  velocity : Fin nd → ℝ
  last_velocity : Fin nd → ℝ
  rho : Matrix (Fin ns) (Fin ns) ℂ
  state : Fin ns
  electronics : ElectronicStructure ns nd
  time : ℝ
  nsteps : ℕ

/-- Embedding of `TrajectorySH.advance_position`. -/
def advance_position {ns nd : ℕ} (dt : ℝ) (t : Traj ns nd) : Traj ns nd :=
  { t with position := fun i => t.position i + t.velocity i * dt }

/-- Embedding of `TrajectorySH.advance_velocity`: kick by the force on the
active surface, retaining the previous velocity as `last_velocity`. -/
def advance_velocity {ns nd : ℕ} (es : ElectronicStructure ns nd)
    (mass : Fin nd → ℝ) (dt : ℝ) (t : Traj ns nd) : Traj ns nd :=
  { t with last_velocity := t.velocity,
           velocity := fun i => t.velocity i + es.force t.state i / mass i * dt }

/-- The effective Hamiltonian `W` diagonalized inside one loop iteration of
`TrajectorySH.simulate`, spelled from the same sub-expressions as `step`. -/
def step_W {ns nd : ℕ} (update : (Fin nd → ℝ) → ElectronicStructure ns nd)
    (mass : Fin nd → ℝ) (dt : ℝ) (t : Traj ns nd) : Matrix (Fin ns) (Fin ns) ℂ :=
  let t1 := advance_position dt t
  let es := update t1.position
  let t2 := advance_velocity es mass dt { t1 with electronics := es }
  hamiltonian_propagator es t2.last_velocity t2.velocity

/-- One iteration of the propagation loop in `TrajectorySH.simulate`:
advance position, query the model at the new position (replacing the
electronic-structure snapshot wholesale), advance velocity, propagate the
density matrix, then surface hopping (probabilities, stochastic hopper with
threshold `zeta`, and `hop_to_it` when a target fires; `hop_to_it` may hit
the fatal complex-roots path, hence `Option`), finally advance time and the
step counter.  The eigendecomposition oracle `eigh` stands for
`np.linalg.eigh`. -/
def step {ns nd : ℕ} (update : (Fin nd → ℝ) → ElectronicStructure ns nd)
    (eigh : Matrix (Fin ns) (Fin ns) ℂ → (Fin ns → ℝ) × Matrix (Fin ns) (Fin ns) ℂ)
    (mass : Fin nd → ℝ) (dt zeta : ℝ) (t : Traj ns nd) : Option (Traj ns nd) :=
  let t1 := advance_position dt t
  let es := update t1.position
  let t2 := advance_velocity es mass dt { t1 with electronics := es }
  let de := eigh (hamiltonian_propagator es t2.last_velocity t2.velocity)
  let t3 := { t2 with rho := propagate_electronics de.1 de.2 dt t2.rho }
  let probs := surface_hopping_probs es t3.rho t3.state t3.last_velocity t3.velocity dt
  let t4o : Option (Traj ns nd) :=
    match hopper probs zeta with
    | some target =>
      match hop_to_it mass t3.electronics t3.state t3.velocity target with
      | some (st2, v2, es2) =>
        some { t3 with state := st2, velocity := v2, electronics := es2 }
      | none => none
    | none => some t3
  t4o.map (fun t4 => { t4 with time := t4.time + dt, nsteps := t4.nsteps + 1 })

/-! ### The even-sampling hopper (`even_sampled_sh.py`) -/

/-- A hop descriptor returned by `EvenSamplingTrajectory.hopper`: the dict
`{ "target", "weight", "zeta", "prob", "stack" }`. -/
structure HopTargetES (ns : ℕ) where
  target : Fin ns
  weight : ℝ
  zeta : ℝ
  prob : ℝ
  stack : SpawnStack ℝ

/-- Embedding of `EvenSamplingTrajectory.hopper`.  Line by line:
`probs[self.state] = 0.0` (in-place), `gkdt = sum(probs)`,
`accumulated = 1 - (1 - prob_cum) * exp(-gkdt)`; if `accumulated > zeta` a
descriptor is built for every state except the active one, with weight
`probs[i]/gkdt`, the trajectory's current `zeta`, `accumulated`, and a
spawned subtree (the comprehension calls `spawn()` once per target on the
un-advanced cursor, producing equal fresh stacks — modelled by the one value
`sub`); then `self.zeta = self.spawn_stack.next_zeta()` (no `random_state`
argument, so an anonymous generator would supply `rand` were the stack
tree-less); `self.prob_cum` is NOT updated in this branch — the firing step
leaves the accumulator at its old value (the `# reset probabilities` comment
notwithstanding, there is no reset).  If `accumulated ≤ zeta`, no descriptors
and `self.prob_cum = accumulated`.  Result: (descriptors, prob_cum after,
zeta after, stack after); `none` models `spawn`/`next_zeta` raising. -/
def hopper_even {ns : ℕ} (state : Fin ns) (probs : Fin ns → ℝ)
    (prob_cum zeta : ℝ) (stack : SpawnStack ℝ) (rand : ℝ) :
    Option (List (HopTargetES ns) × ℝ × ℝ × SpawnStack ℝ) :=
  let probs2 := Function.update probs state 0
  let gkdt := ∑ i, probs2 i
  let accumulated := 1 - (1 - prob_cum) * Real.exp (-gkdt)
  if accumulated > zeta then
    match stack.spawn with
    | none => none
    | some sub =>
      let targets := ((List.finRange ns).filter (fun i => decide (i ≠ state))).map
        (fun i => HopTargetES.mk i (probs2 i / gkdt) zeta accumulated sub)
      match stack.next_zeta rand with
      | none => none
      | some z2 => some (targets, prob_cum, z2.1, z2.2)
  else
    some ([], accumulated, zeta, stack)

/-- Concrete electronic structure for the C1 witness: two states, one
dimension, potential gap 3/2, coupling 1 between the states. -/
def esW : ElectronicStructure 2 1 :=
  ⟨Matrix.of fun i j => if i = 1 ∧ j = 1 then 3 / 2 else 0, 0,
   fun i j => if i = 0 ∧ j = 1 then (fun _ => 1) else 0⟩

/-- Concrete electronic structure for the C1 counterexample: two states, two
dimensions, potential gap 1, coupling row (3,4). -/
def esX : ElectronicStructure 2 2 :=
  ⟨Matrix.of fun i j => if i = 1 ∧ j = 1 then 1 else 0, 0,
   fun i j => if i = 0 ∧ j = 1 then ![3, 4] else 0⟩

/-- Concrete electronic structure for C9: two states, two dimensions, zero
Hamiltonian (so the 0 → 1 hop is always accepted), coupling row (3, 4). -/
def esY : ElectronicStructure 2 2 :=
  ⟨0, 0, fun i j => if i = 0 ∧ j = 1 then ![3, 4] else 0⟩

/-- Concrete inputs for the C3 witness: one state, one dimension, everything
zero (a trivial but well-formed model), density matrix 1 (trace one). -/
def esT : ElectronicStructure 1 1 :=
  ⟨0, 0, fun _ _ _ => 0⟩

/-- Initial trajectory for the C3 witness. -/
def t0 : Traj 1 1 :=
  ⟨fun _ => 0, fun _ => 0, fun _ => 0, 1, 0, esT, 0, 0⟩

/-- Concrete electronic structure for the C4 witness: two states, one
dimension, couplings all 1. -/
def esZ : ElectronicStructure 2 1 :=
  ⟨0, 0, fun _ _ => fun _ => 1⟩

/-- Concrete density matrix for the C4 witness. -/
def rhoZ : Matrix (Fin 2) (Fin 2) ℂ :=
  Matrix.of fun i j => Complex.ofReal (if i = j then 1 / 2 else 1 / 4)

/-- Concrete spawn stack for the C5 witness and counterexample: two scheduled
thresholds 1/4 and 3/4 with dw = 1/2 each, cursor on the first. -/
def stackC5 : SpawnStack ℝ :=
  ⟨some [SampleNode.mk (1 / 4) (1 / 2) none, SampleNode.mk (3 / 4) (1 / 2) none],
   1, some 0, some (1 / 4)⟩

/-! ### Theorems -/

/-- Equation lemma: an empty path contributes the unit weight factor. -/
theorem dw_product_nil {α : Type} [Mul α] [One α]
    (stack : Option (List (SampleNode α))) : dw_product stack [] = some 1 := by
  cases stack <;> rfl

/-- Equation lemma: a missing tree contributes nothing along a path. -/
theorem dw_product_none_cons {α : Type} [Mul α] [One α] (i : ℕ) (rest : List ℕ) :
    dw_product (none : Option (List (SampleNode α))) (i :: rest)
      = dw_product none rest := rfl

/-- Equation lemma for a present tree. -/
theorem dw_product_some_cons {α : Type} [Mul α] [One α]
    (l : List (SampleNode α)) (i : ℕ) (rest : List ℕ) :
    dw_product (some l) (i :: rest)
      = if l.isEmpty then dw_product none rest
        else
          match l[i]? with
          | some samp => (dw_product samp.children rest).map (fun w => samp.dw * w)
          | none => none := rfl

/-- Helper for evaluating concrete square roots. -/
theorem sqrt_eval {x y : ℝ} (hy : 0 ≤ y) (h : x = y ^ 2) : Real.sqrt x = y := by
  rw [h, Real.sqrt_sq hy]

/-- A value returned by `quad_scal` really is a root of the quadratic. -/
theorem quad_scal_root (a b c s : ℝ) (ha : a ≠ 0) (h : quad_scal a b c = some s) :
    a * s ^ 2 + b * s + c = 0 := by
  unfold quad_scal at h
  by_cases hneg : b ^ 2 - 4 * a * c < 0
  · rw [if_pos hneg] at h; cases h
  · rw [if_neg hneg] at h
    push_neg at hneg
    have hS : Real.sqrt (b ^ 2 - 4 * a * c) ^ 2 = b ^ 2 - 4 * a * c :=
      Real.sq_sqrt hneg
    simp only [Option.some.injEq] at h
    split_ifs at h
    · rw [← h]
      field_simp
      linear_combination 2 * a ^ 2 * hS
    · rw [← h]
      field_simp
      linear_combination 2 * a ^ 2 * hS

/-- Scaling behaviour of the root selection: dividing `a` by `k²` and `b` by
`k` (with `k > 0`) scales both roots, their relative magnitudes, and hence
the selected root, by exactly `k`.  This is the algebraic content of the
in-place normalization in `rescale_component`: the normalized quadratic's
chosen root is `‖direction‖` times the unnormalized one. -/
theorem quad_scal_div_sq (a b c k : ℝ) (hk : 0 < k) :
    quad_scal (a / k ^ 2) (b / k) c = (quad_scal a b c).map (fun s => k * s) := by
  have hk2 : (0 : ℝ) < k ^ 2 := by positivity
  have hkne : k ≠ 0 := hk.ne'
  have hdisc : (b / k) ^ 2 - 4 * (a / k ^ 2) * c = (b ^ 2 - 4 * a * c) / k ^ 2 := by
    field_simp
  unfold quad_scal
  rw [hdisc]
  by_cases hneg : b ^ 2 - 4 * a * c < 0
  · rw [if_pos (by rwa [div_lt_iff₀ hk2, zero_mul]), if_pos hneg]
    rfl
  · have hneg2 : ¬ (b ^ 2 - 4 * a * c) / k ^ 2 < 0 := by
      rw [div_lt_iff₀ hk2, zero_mul]; exact hneg
    rw [if_neg hneg2, if_neg hneg]
    push_neg at hneg
    have hs : Real.sqrt ((b ^ 2 - 4 * a * c) / k ^ 2)
        = Real.sqrt (b ^ 2 - 4 * a * c) / k := by
      rw [Real.sqrt_div hneg, Real.sqrt_sq hk.le]
    rw [hs]
    have hr1 : (-(b / k) + Real.sqrt (b ^ 2 - 4 * a * c) / k) / (2 * (a / k ^ 2))
        = k * ((-b + Real.sqrt (b ^ 2 - 4 * a * c)) / (2 * a)) := by
      rcases eq_or_ne a 0 with ha | ha
      · simp [ha]
      · field_simp
        ring
    have hr2 : (-(b / k) - Real.sqrt (b ^ 2 - 4 * a * c) / k) / (2 * (a / k ^ 2))
        = k * ((-b - Real.sqrt (b ^ 2 - 4 * a * c)) / (2 * a)) := by
      rcases eq_or_ne a 0 with ha | ha
      · simp [ha]
      · field_simp
        ring
    rw [hr1, hr2]
    simp only [Option.map_some', abs_mul, abs_of_pos hk, mul_le_mul_left hk]
    split_ifs <;> rfl

/-- The in-place normalization in `rescale_component` cancels: the source's
computation on the normalized direction equals the quadratic with the
UNNORMALIZED coefficients `a = Σ direction²/mass`, `b = 2 (velocity·direction)`
(the form the spec states), with the update `velocity += s·direction/mass`.
Substituting `s = ‖direction‖·t` maps one quadratic's roots onto the other's,
preserving relative magnitudes. -/
theorem rescale_eq {nd : ℕ} (mass velocity direction : Fin nd → ℝ) (reduction : ℝ)
    (hm : ∀ i, 0 < mass i) (hdir : ∃ i, direction i ≠ 0) :
    rescale_component mass velocity direction reduction
      = (quad_scal (∑ i, direction i * direction i / mass i)
          (2 * ∑ i, velocity i * direction i) (-2 * reduction)).map
        (fun scal =>
          (fun i => velocity i + scal * direction i / mass i,
           fun i => direction i / Real.sqrt (∑ j, direction j * direction j))) := by
  obtain ⟨i0, hi0⟩ := hdir
  have hN : 0 < ∑ j, direction j * direction j :=
    Finset.sum_pos' (fun i _ => mul_self_nonneg _)
      ⟨i0, Finset.mem_univ _, mul_self_pos.mpr hi0⟩
  have hsN : 0 < Real.sqrt (∑ j, direction j * direction j) := Real.sqrt_pos.mpr hN
  have hsNne : Real.sqrt (∑ j, direction j * direction j) ≠ 0 := hsN.ne'
  have ha : (∑ i, (1 / mass i)
        * (direction i / Real.sqrt (∑ j, direction j * direction j))
        * (direction i / Real.sqrt (∑ j, direction j * direction j)))
      = (∑ i, direction i * direction i / mass i)
          / Real.sqrt (∑ j, direction j * direction j) ^ 2 := by
    rw [Finset.sum_div]
    refine Finset.sum_congr rfl fun i _ => ?_
    ring
  have hb : (2 * ∑ i, velocity i
        * (direction i / Real.sqrt (∑ j, direction j * direction j)))
      = (2 * ∑ i, velocity i * direction i)
          / Real.sqrt (∑ j, direction j * direction j) := by
    calc 2 * ∑ i, velocity i
          * (direction i / Real.sqrt (∑ j, direction j * direction j))
        = 2 * ∑ i, velocity i * direction i
            / Real.sqrt (∑ j, direction j * direction j) := by
          congr 1
          exact Finset.sum_congr rfl fun i _ => (mul_div_assoc _ _ _).symm
      _ = 2 * ((∑ i, velocity i * direction i)
            / Real.sqrt (∑ j, direction j * direction j)) := by
          rw [← Finset.sum_div]
      _ = (2 * ∑ i, velocity i * direction i)
            / Real.sqrt (∑ j, direction j * direction j) := by
          rw [mul_div_assoc]
  rw [rescale_component, ha, hb, quad_scal_div_sq _ _ _ _ hsN, Option.map_map]
  congr 1
  funext scal
  refine Prod.ext ?_ rfl
  funext i
  show velocity i + (Real.sqrt (∑ j, direction j * direction j) * scal) * (1 / mass i)
      * (direction i / Real.sqrt (∑ j, direction j * direction j))
    = velocity i + scal * direction i / mass i
  have := (hm i).ne'
  field_simp
  ring

/-- Kinetic-energy bookkeeping of an executed rescale: whatever root is
selected, the kinetic energy changes by exactly `reduction` (`-ΔV`). -/
theorem rescale_kinetic {nd : ℕ} (mass velocity direction : Fin nd → ℝ)
    (reduction : ℝ) (hm : ∀ i, 0 < mass i) (hdir : ∃ i, direction i ≠ 0)
    (v2 d2 : Fin nd → ℝ)
    (h : rescale_component mass velocity direction reduction = some (v2, d2)) :
    kinetic_energy mass v2 = kinetic_energy mass velocity + reduction := by
  rw [rescale_eq mass velocity direction reduction hm hdir] at h
  rw [Option.map_eq_some'] at h
  obtain ⟨s, hs, heq⟩ := h
  have haA : 0 < ∑ i, direction i * direction i / mass i := by
    obtain ⟨i0, hi0⟩ := hdir
    exact Finset.sum_pos' (fun i _ => div_nonneg (mul_self_nonneg _) (hm i).le)
      ⟨i0, Finset.mem_univ _, div_pos (mul_self_pos.mpr hi0) (hm i0)⟩
  have hroot := quad_scal_root _ _ _ _ haA.ne' hs
  rw [Prod.mk.injEq] at heq
  obtain ⟨hv2, hd2⟩ := heq
  rw [← hv2]
  unfold kinetic_energy
  have expand : ∀ i, mass i * (velocity i + s * direction i / mass i)
        * (velocity i + s * direction i / mass i)
      = mass i * velocity i * velocity i + (2 * s) * (velocity i * direction i)
        + s ^ 2 * (direction i * direction i / mass i) := fun i => by
    have := (hm i).ne'
    field_simp
    ring
  rw [Finset.sum_congr rfl fun i _ => expand i]
  rw [Finset.sum_add_distrib, Finset.sum_add_distrib, ← Finset.mul_sum, ← Finset.mul_sum]
  linear_combination (1 / 2 : ℝ) * hroot

/-- The kinetic energy along a mode is never negative (for positive masses). -/
theorem mode_kinetic_energy_nonneg {nd : ℕ} (mass velocity direction : Fin nd → ℝ)
    (hm : ∀ i, 0 < mass i) :
    0 ≤ mode_kinetic_energy mass velocity direction := by
  unfold mode_kinetic_energy
  refine mul_nonneg (by norm_num) (Finset.sum_nonneg fun i _ => ?_)
  rw [mul_assoc]
  exact mul_nonneg (one_div_nonneg.mpr (hm i).le) (mul_self_nonneg _)

/-- C6: the termination predicate `continue_simulating` satisfies the duration
state machine: it returns `False` (leaving the duration state unchanged)
whenever `nsteps` exceeds `max_steps` or `time` exceeds `max_time`, regardless
of position; within budget and before the box has been found it never returns
`False` (so position alone cannot terminate it) and the latched `found_box`
flag becomes `true` exactly when the position is strictly inside the box; and
once `found_box` is latched it returns `False` exactly when the position is
outside the box. -/
theorem continue_simulating_state_machine {nd : ℕ} (dur : Duration nd)
    (nsteps : ℕ) (time : ℚ) (position : Fin nd → ℚ) :
    ((dur.max_steps < nsteps ∨ dur.max_time < time) →
      continue_simulating dur nsteps time position = (false, dur))
    ∧ (¬(dur.max_steps < nsteps ∨ dur.max_time < time) → dur.found_box = false →
      (continue_simulating dur nsteps time position).1 = true
      ∧ (continue_simulating dur nsteps time position).2.found_box
          = currently_interacting dur position)
    ∧ (¬(dur.max_steps < nsteps ∨ dur.max_time < time) → dur.found_box = true →
      ((continue_simulating dur nsteps time position).1 = false
        ↔ currently_interacting dur position = false)) := by
  refine ⟨fun h => ?_, fun h hfb => ?_, fun h hfb => ?_⟩
  · simp only [continue_simulating, if_pos h]
  · unfold continue_simulating
    rw [if_neg h, if_neg (by simp [hfb])]
    cases hci : currently_interacting dur position <;> simp [hfb]
  · unfold continue_simulating
    rw [if_neg h, if_pos hfb]

/-- Witness for C6 at concrete inputs: a trajectory past `max_steps` stops
even though its position is strictly inside the box; within budget a
not-yet-latched trajectory keeps running with the flag latching on entry; a
latched trajectory outside the box stops. -/
theorem continue_simulating_state_machine_witness :
    continue_simulating
        (⟨false, some (fun _ => 0, fun _ => 10), 100, 1000⟩ : Duration 1)
        101 0 (fun _ => 5) = (false, ⟨false, some (fun _ => 0, fun _ => 10), 100, 1000⟩)
    ∧ ((continue_simulating
        (⟨false, some (fun _ => 0, fun _ => 10), 100, 1000⟩ : Duration 1)
        5 0 (fun _ => 5)).1 = true
      ∧ (continue_simulating
        (⟨false, some (fun _ => 0, fun _ => 10), 100, 1000⟩ : Duration 1)
        5 0 (fun _ => 5)).2.found_box
        = currently_interacting
            (⟨false, some (fun _ => 0, fun _ => 10), 100, 1000⟩ : Duration 1)
            (fun _ => 5))
    ∧ ((continue_simulating
        (⟨true, some (fun _ => 0, fun _ => 10), 100, 1000⟩ : Duration 1)
        5 0 (fun _ => 50)).1 = false
      ↔ currently_interacting
          (⟨true, some (fun _ => 0, fun _ => 10), 100, 1000⟩ : Duration 1)
          (fun _ => 50) = false) :=
  ⟨(continue_simulating_state_machine _ 101 0 _).1 (Or.inl (by norm_num)),
   (continue_simulating_state_machine _ 5 0 _).2.1 (by norm_num) rfl,
   (continue_simulating_state_machine _ 5 0 _).2.2 (by norm_num) rfl⟩

/-- C7: `spawn` on a stack with a non-empty tree and positioned cursor wraps
the children of the node at the cursor with weight multiplied by that node's
`dw`; on a stack with no tree it returns a stack with no tree and the same
weight; and along any chain of spawns the weight of a descendant equals the
ancestor's weight times the product of the `dw` values along the path. -/
theorem spawn_subtree_weight {α : Type} [CommMonoid α] :
    (∀ (s : SpawnStack α) (l : List (SampleNode α)) (i : ℕ) (samp : SampleNode α),
      s.sample_stack = some l → l.isEmpty = false → s.izeta = some i →
      l[i]? = some samp →
      s.spawn = some ⟨samp.children, s.weight * samp.dw, none, none⟩)
    ∧ (∀ s : SpawnStack α, s.sample_stack = none →
      s.spawn = some ⟨none, s.weight, none, none⟩)
    ∧ (∀ (path : List ℕ) (s t : SpawnStack α), s.spawn_path path = some t →
      ∃ w, dw_product s.sample_stack path = some w ∧ t.weight = s.weight * w) := by
  refine ⟨fun s l i samp hs hemp hiz hget => ?_, fun s hs => ?_, ?_⟩
  · simp [SpawnStack.spawn, hs, hemp, hiz, hget]
  · simp [SpawnStack.spawn, hs]
  · intro path
    induction path with
    | nil =>
      intro s t hsp
      simp only [SpawnStack.spawn_path, Option.some.injEq] at hsp
      exact ⟨1, dw_product_nil _, by rw [← hsp, mul_one]⟩
    | cons i rest ih =>
      intro s t hsp
      simp only [SpawnStack.spawn_path] at hsp
      rcases hstack : s.sample_stack with _ | l
      · have hstep : s.spawn_at i = some ⟨none, s.weight, none, none⟩ := by
          simp [SpawnStack.spawn_at, SpawnStack.spawn, hstack]
        simp only [hstep] at hsp
        rcases ih _ _ hsp with ⟨w, hw, hwt⟩
        exact ⟨w, by rw [dw_product_none_cons]; exact hw, hwt⟩
      · cases hemp : l.isEmpty with
        | true =>
          have hstep : s.spawn_at i = some ⟨none, s.weight, none, none⟩ := by
            simp [SpawnStack.spawn_at, SpawnStack.spawn, hstack, hemp]
          simp only [hstep] at hsp
          rcases ih _ _ hsp with ⟨w, hw, hwt⟩
          exact ⟨w, by rw [dw_product_some_cons, if_pos hemp]; exact hw, hwt⟩
        | false =>
          rcases hget : l[i]? with _ | samp
          · have hstep : s.spawn_at i = none := by
              simp [SpawnStack.spawn_at, SpawnStack.spawn, hstack, hemp, hget]
            simp only [hstep] at hsp
            exact absurd hsp (by simp)
          · have hstep : s.spawn_at i
                = some ⟨samp.children, s.weight * samp.dw, none, none⟩ := by
              simp [SpawnStack.spawn_at, SpawnStack.spawn, hstack, hemp, hget]
            simp only [hstep] at hsp
            rcases ih _ _ hsp with ⟨w, hw, hwt⟩
            have hw2 : dw_product samp.children rest = some w := hw
            refine ⟨samp.dw * w, ?_, ?_⟩
            · rw [dw_product_some_cons, if_neg (by simp [hemp])]
              simp [hget, hw2]
            · rw [hwt]; exact mul_assoc _ _ _

/-- Witness for C7 at a concrete rational stack: spawning at a positioned
cursor wraps that node's children and multiplies the weight by its `dw`;
a tree-less stack keeps its weight; a one-step path multiplies by the path's
`dw` product. -/
theorem spawn_subtree_weight_witness :
    (SpawnStack.spawn
      (⟨some [SampleNode.mk (1/2) (1/2) (some [SampleNode.mk 1 1 none]),
              SampleNode.mk 1 (1/2) none], (3 : ℚ), some 0, some (1/2)⟩)
      = some ⟨some [SampleNode.mk 1 1 none], 3 * (1/2), none, none⟩)
    ∧ (SpawnStack.spawn (⟨none, (5 : ℚ), none, none⟩)
      = some ⟨none, 5, none, none⟩)
    ∧ (∃ w, dw_product
        (some [SampleNode.mk (1/2) (1/2) (some [SampleNode.mk 1 1 none]),
               SampleNode.mk 1 (1/2) none]) [0] = some w
      ∧ ((⟨some [SampleNode.mk 1 1 none], 3 * (1/2), none, none⟩ :
          SpawnStack ℚ).weight) = 3 * w) :=
  ⟨(spawn_subtree_weight (α := ℚ)).1
      ⟨some [SampleNode.mk (1/2) (1/2) (some [SampleNode.mk 1 1 none]),
             SampleNode.mk 1 (1/2) none], (3 : ℚ), some 0, some (1/2)⟩
      [SampleNode.mk (1/2) (1/2) (some [SampleNode.mk 1 1 none]),
       SampleNode.mk 1 (1/2) none]
      0 (SampleNode.mk (1/2) (1/2) (some [SampleNode.mk 1 1 none]))
      rfl rfl rfl rfl,
   (spawn_subtree_weight (α := ℚ)).2.1 ⟨none, (5 : ℚ), none, none⟩ rfl,
   (spawn_subtree_weight (α := ℚ)).2.2 [0]
     ⟨some [SampleNode.mk (1/2) (1/2) (some [SampleNode.mk 1 1 none]),
            SampleNode.mk 1 (1/2) none], (3 : ℚ), some 0, some (1/2)⟩
     ⟨some [SampleNode.mk 1 1 none], 3 * (1/2), none, none⟩ rfl⟩

/-- C8 counterexample: `build_simple(nsamples=4, sample_depth=1)` with the
default `include_first=False` produces the threshold list `[1/4, 1/2, 3/4, 1]`,
and these are not all inside the open interval `(0,1)`: the last threshold is
exactly 1. -/
theorem build_simple_endpoint_outside_open_interval :
    (SpawnStack.build_simple (α := ℚ) 4 1 false).map
        (fun s => (s.sample_stack.getD []).map SampleNode.zeta)
      = some [1/4, 1/2, 3/4, 1]
    ∧ ¬(∀ z ∈ [(1 : ℚ)/4, 1/2, 3/4, 1], 0 < z ∧ z < 1) := by
  constructor
  · norm_num [SpawnStack.build_simple, linspace, List.range_succ,
      List.insertionSort, List.orderedInsert, SampleNode.zeta]
  · intro h
    exact absurd (h 1 (by norm_num)).2 (by norm_num)

/-- C8 (amended): `build_simple(nsamples=4, sample_depth=1)` produces a single
level of exactly 4 threshold nodes, monotonically ordered and evenly spaced in
the half-open interval `(0,1]`, each with `dw = 1/4` and no children, so the
`dw` values at the level sum to 1. -/
theorem build_simple_four_even_thresholds :
    SpawnStack.build_simple (α := ℚ) 4 1 false
      = some ⟨some [SampleNode.mk (1/4) (1/4) none, SampleNode.mk (1/2) (1/4) none,
                    SampleNode.mk (3/4) (1/4) none, SampleNode.mk 1 (1/4) none],
              1, none, none⟩
    ∧ ((1 : ℚ)/4 + 1/4 + 1/4 + 1/4 = 1)
    ∧ ((0 : ℚ) < 1/4 ∧ (1/4 : ℚ) < 1/2 ∧ (1/2 : ℚ) < 3/4 ∧ (3/4 : ℚ) < 1 ∧ (1 : ℚ) ≤ 1)
    ∧ ((1 : ℚ)/2 - 1/4 = 1/4 ∧ (3 : ℚ)/4 - 1/2 = 1/4 ∧ (1 : ℚ) - 3/4 = 1/4) := by
  refine ⟨?_, by norm_num, by norm_num, by norm_num⟩
  norm_num [SpawnStack.build_simple, linspace, List.range_succ,
    List.insertionSort, List.orderedInsert]

/-- C10: the constructor branch for an unrecognized scalar `rho0` does NOT
raise: the source builds `Exception("Unrecognized initial state option")`
without `raise`, so construction completes with `rho` and `state` never
assigned, while the `"ground"` branch sets them.  (The claim says an exception
is raised immediately at construction; the code defers the failure.) -/
theorem init_quantum_unrecognized_scalar_no_raise :
    init_quantum 2 (Rho0.scalar ("excited")) none = .ok ⟨none, none⟩
    ∧ init_quantum 2 (Rho0.scalar ("ground")) none
        = .ok ⟨some (ground_rho 2), some 0⟩ :=
  ⟨rfl, rfl⟩

/-- C2 (amended): the velocity rescale solves the quadratic with the
unnormalized coefficients `a = Σ direction²/mass`, `b = 2 (velocity·direction)`
and `c = 2·ΔV` (the code is invoked with `reduction = -ΔV` and sets
`c = -2·reduction`; the claim's `c = -2·ΔV` has the wrong sign), selects the
real root of smallest magnitude, and updates `velocity += s·direction/mass`:
the source's computation on the in-place-normalized direction equals exactly
this unnormalized description. -/
theorem rescale_component_matches_quadratic {nd : ℕ}
    (mass velocity direction : Fin nd → ℝ) (deltaV : ℝ)
    (hm : ∀ i, 0 < mass i) (hdir : ∃ i, direction i ≠ 0) :
    (rescale_component mass velocity direction (-deltaV)).map Prod.fst
      = rescale_component_amended mass velocity direction deltaV := by
  rw [rescale_eq mass velocity direction (-deltaV) hm hdir, Option.map_map]
  unfold rescale_component_amended
  rw [show (-2 : ℝ) * -deltaV = 2 * deltaV from by ring]
  rfl

/-- Witness for C2 at a concrete one-dimensional input. -/
theorem rescale_component_matches_quadratic_witness :
    (rescale_component (fun _ : Fin 1 => (1 : ℝ)) (fun _ => 5) (fun _ => 1)
        (-12)).map Prod.fst
      = rescale_component_amended (fun _ : Fin 1 => (1 : ℝ)) (fun _ => 5)
          (fun _ => 1) 12 :=
  rescale_component_matches_quadratic _ _ _ 12 (fun _ => one_pos) ⟨0, one_ne_zero⟩

/-- C2 counterexample: with `c = -2·ΔV` as the claim states it (ΔV = target
minus source potential), the selected root and updated velocity differ from
what the code computes.  At mass 1, velocity 5, direction 1, ΔV = 12 the code
solves `s² + 10s + 24 = 0` (roots −4, −6, selected −4, velocity 1), while the
claim's coefficients give `s² + 10s − 24 = 0` (roots 2, −12, selected 2,
velocity 7). -/
theorem rescale_component_claim_sign_counterexample :
    (rescale_component (fun _ : Fin 1 => (1 : ℝ)) (fun _ => 5) (fun _ => 1)
        (-12)).map Prod.fst
      ≠ rescale_component_claim (fun _ : Fin 1 => (1 : ℝ)) (fun _ => 5)
          (fun _ => 1) 12 := by
  have hq1 : quad_scal 1 10 24 = some (-4) := by
    unfold quad_scal
    rw [show (10 : ℝ) ^ 2 - 4 * 1 * 24 = 2 ^ 2 from by norm_num,
      Real.sqrt_sq (by norm_num : (0 : ℝ) ≤ 2)]
    rw [if_neg (by norm_num)]
    rw [if_pos (by rw [abs_of_nonpos (by norm_num), abs_of_nonpos (by norm_num)]; norm_num)]
    norm_num [Option.some.injEq]
  have hq2 : quad_scal 1 10 (-24) = some 2 := by
    unfold quad_scal
    rw [show (10 : ℝ) ^ 2 - 4 * 1 * (-24) = 14 ^ 2 from by norm_num,
      Real.sqrt_sq (by norm_num : (0 : ℝ) ≤ 14)]
    rw [if_neg (by norm_num)]
    rw [if_pos (by rw [abs_of_nonneg (by norm_num), abs_of_nonpos (by norm_num)]; norm_num)]
    norm_num [Option.some.injEq]
  rw [rescale_eq _ _ _ (-12) (fun _ => one_pos) ⟨0, one_ne_zero⟩, Option.map_map]
  unfold rescale_component_claim
  simp only [Fin.sum_univ_one]
  norm_num
  rw [hq1, hq2]
  simp only [Option.map_some']
  intro heq
  rw [Option.some.injEq] at heq
  have h0 := congrFun heq 0
  norm_num at h0

/-- C1 (amended): for every hop that is accepted (delta-V does not exceed the
mode kinetic energy) AND whose rescale quadratic has a real root (equivalently
`hop_to_it` returns a result rather than hitting the complex-roots failure),
executing `hop_to_it` leaves the total energy unchanged: kinetic plus
active-surface potential after the state change and velocity rescale equals
kinetic plus active-surface potential before, exactly. -/
theorem hop_to_it_conserves_energy {ns nd : ℕ} (mass : Fin nd → ℝ)
    (es : ElectronicStructure ns nd) (state target : Fin ns)
    (velocity : Fin nd → ℝ)
    (hm : ∀ i, 0 < mass i)
    (hdir : ∃ i, direction_of_rescale es state target i ≠ 0)
    (hacc : es.hamiltonian target target - es.hamiltonian state state
      ≤ mode_kinetic_energy mass velocity (direction_of_rescale es state target))
    (st2 : Fin ns) (v2 : Fin nd → ℝ) (es2 : ElectronicStructure ns nd)
    (h : hop_to_it mass es state velocity target = some (st2, v2, es2)) :
    kinetic_energy mass v2 + potential_energy es2 st2
      = kinetic_energy mass velocity + potential_energy es state := by
  simp only [hop_to_it] at h
  rw [if_pos hacc] at h
  rcases hr : rescale_component mass velocity (direction_of_rescale es state target)
      (-(es.hamiltonian target target - es.hamiltonian state state))
    with _ | ⟨v2x, d2x⟩
  · simp only [hr] at h
    exact Option.noConfusion h
  · simp only [hr, Option.some.injEq, Prod.mk.injEq] at h
    obtain ⟨h1, h2, h3⟩ := h
    subst h1
    subst h2
    subst h3
    have hKE := rescale_kinetic mass velocity (direction_of_rescale es state target)
      (-(es.hamiltonian target target - es.hamiltonian state state))
      hm hdir v2x d2x hr
    rw [hKE]
    show kinetic_energy mass velocity
        + -(es.hamiltonian target target - es.hamiltonian state state)
        + es.hamiltonian target target
      = kinetic_energy mass velocity + es.hamiltonian state state
    ring

/-- Witness for C1: an accepted, energetically allowed hop at mass 1,
velocity 2, coupling 1, ΔV = 3/2, with total energy conserved. -/
theorem hop_to_it_conserves_energy_witness :
    ∃ (st2 : Fin 2) (v2 : Fin 1 → ℝ) (es2 : ElectronicStructure 2 1),
      hop_to_it (fun _ => (1 : ℝ)) esW 0 (fun _ => 2) 1 = some (st2, v2, es2)
      ∧ kinetic_energy (fun _ : Fin 1 => (1 : ℝ)) v2 + potential_energy es2 st2
        = kinetic_energy (fun _ : Fin 1 => (1 : ℝ)) (fun _ => 2)
            + potential_energy esW 0 := by
  have hd : direction_of_rescale esW 0 1 = fun _ => 1 := by
    simp [direction_of_rescale, esW]
  have hdir : ∃ i, direction_of_rescale esW 0 1 i ≠ 0 :=
    ⟨0, by rw [hd]; norm_num⟩
  have hm : ∀ i : Fin 1, 0 < (fun _ => (1 : ℝ)) i := fun _ => one_pos
  have hH1 : esW.hamiltonian 1 1 = 3 / 2 := by
    norm_num [esW, Matrix.of_apply]
  have hH0 : esW.hamiltonian 0 0 = 0 := by
    norm_num [esW, Matrix.of_apply, Fin.ext_iff]
  have hmode : mode_kinetic_energy (fun _ : Fin 1 => (1 : ℝ)) (fun _ => 2)
      (fun _ => 1) = 2 := by
    norm_num [mode_kinetic_energy, Fin.sum_univ_one, Real.sqrt_one]
  have hacc : esW.hamiltonian 1 1 - esW.hamiltonian 0 0
      ≤ mode_kinetic_energy (fun _ => (1 : ℝ)) (fun _ => 2)
          (direction_of_rescale esW 0 1) := by
    rw [hd, hH1, hH0, hmode]
    norm_num
  rcases hres : hop_to_it (fun _ => (1 : ℝ)) esW 0 (fun _ => 2) 1
    with _ | ⟨st2, v2, es2⟩
  · exfalso
    simp only [hop_to_it] at hres
    rw [if_pos hacc] at hres
    rcases hres2 : rescale_component (fun _ => (1 : ℝ)) (fun _ => 2)
        (direction_of_rescale esW 0 1)
        (-(esW.hamiltonian 1 1 - esW.hamiltonian 0 0)) with _ | pair
    · rw [rescale_eq _ _ _ _ hm hdir] at hres2
      rw [Option.map_eq_none'] at hres2
      rw [hd, hH1, hH0] at hres2
      simp only [Fin.sum_univ_one] at hres2
      norm_num at hres2
      -- hres2 : quad_scal 1 4 3 = none, but the discriminant is 4 ≥ 0
      unfold quad_scal at hres2
      rw [if_neg (by norm_num)] at hres2
      exact Option.noConfusion hres2
    · simp only [hres2] at hres
      exact Option.noConfusion hres
  · exact ⟨st2, v2, es2, rfl,
      hop_to_it_conserves_energy _ esW 0 1 _ hm hdir hacc st2 v2 es2 hres⟩

/-- C1 counterexample: with the non-uniform mass vector (16, 1), velocity
(1, 0) and coupling direction (3, 4), the hop from state 0 to state 1 with
ΔV = 1 is ACCEPTED by the mode-kinetic-energy test (1 ≤ 3816/125), yet the
rescale quadratic has negative discriminant, so no real velocity rescale
exists and `hop_to_it` aborts (numpy would fault adding a complex scalar into
the float velocity).  Hence "every accepted hop conserves total energy" fails
as stated: the accepted hop cannot be executed at all. -/
theorem hop_accepted_without_real_root :
    (esX.hamiltonian 1 1 - esX.hamiltonian 0 0
      ≤ mode_kinetic_energy ![16, 1] ![1, 0] (direction_of_rescale esX 0 1))
    ∧ hop_to_it ![16, 1] esX 0 ![1, 0] 1 = none := by
  have hd : direction_of_rescale esX 0 1 = ![3, 4] := by
    simp [direction_of_rescale, esX]
  have hdir : ∃ i, direction_of_rescale esX 0 1 i ≠ 0 :=
    ⟨0, by rw [hd]; norm_num⟩
  have hm : ∀ i : Fin 2, 0 < (![16, 1] : Fin 2 → ℝ) i := by
    intro i
    fin_cases i <;> norm_num
  have hH1 : esX.hamiltonian 1 1 = 1 := by
    norm_num [esX, Matrix.of_apply]
  have hH0 : esX.hamiltonian 0 0 = 0 := by
    norm_num [esX, Matrix.of_apply, Fin.ext_iff]
  have h25 : Real.sqrt (25 : ℝ) = 5 := sqrt_eval (by norm_num) (by norm_num)
  have hmode : mode_kinetic_energy ![16, 1] ![1, 0] ![3, 4] = 3816 / 125 := by
    norm_num [mode_kinetic_energy, Fin.sum_univ_two, h25]
  have hacc : esX.hamiltonian 1 1 - esX.hamiltonian 0 0
      ≤ mode_kinetic_energy ![16, 1] ![1, 0] (direction_of_rescale esX 0 1) := by
    rw [hd, hH1, hH0, hmode]
    norm_num
  refine ⟨hacc, ?_⟩
  simp only [hop_to_it]
  rw [if_pos hacc]
  rw [rescale_eq _ _ _ _ hm hdir, hd]
  have hA : (∑ i, (![3, 4] : Fin 2 → ℝ) i * ![3, 4] i / ![16, 1] i) = 265 / 16 := by
    norm_num [Fin.sum_univ_two]
  have hB : (2 * ∑ i, (![1, 0] : Fin 2 → ℝ) i * ![3, 4] i) = 6 := by
    norm_num [Fin.sum_univ_two]
  have hC : (-2 : ℝ) * -(esX.hamiltonian 1 1 - esX.hamiltonian 0 0) = 2 := by
    rw [hH1, hH0]
    norm_num
  rw [hA, hB, hC]
  have hqnone : quad_scal (265 / 16) 6 2 = none := by
    unfold quad_scal
    rw [if_pos (by norm_num)]
  rw [hqnone]
  rfl

/-- C9: an accepted hop DOES mutate the current electronic-structure snapshot.
`direction_of_rescale` returns a numpy view into `derivative_coupling`, and
`rescale_component` normalizes that vector in place, so after the hop the
snapshot's `derivative_coupling[source, target, :]` holds the normalized
values ((3,4) becomes (3/5, 4/5)); `hamiltonian` and `force` are unchanged. -/
theorem hop_to_it_writes_coupling :
    ∃ st2 v2 es2,
      hop_to_it (fun _ => (1 : ℝ)) esY 0 ![5, 5] 1 = some (st2, v2, es2)
      ∧ es2.derivative_coupling 0 1 0 = 3 / 5
      ∧ esY.derivative_coupling 0 1 0 = 3
      ∧ es2.derivative_coupling 0 1 ≠ esY.derivative_coupling 0 1
      ∧ es2.hamiltonian = esY.hamiltonian
      ∧ es2.force = esY.force := by
  have hd : direction_of_rescale esY 0 1 = ![3, 4] := by
    simp [direction_of_rescale, esY]
  have hdir : ∃ i, direction_of_rescale esY 0 1 i ≠ 0 :=
    ⟨0, by rw [hd]; norm_num⟩
  have hm : ∀ i : Fin 2, 0 < (fun _ => (1 : ℝ)) i := fun _ => one_pos
  have hH : esY.hamiltonian 1 1 - esY.hamiltonian 0 0 = 0 := by
    simp [esY]
  have hacc : esY.hamiltonian 1 1 - esY.hamiltonian 0 0
      ≤ mode_kinetic_energy (fun _ => (1 : ℝ)) ![5, 5]
          (direction_of_rescale esY 0 1) := by
    rw [hH]
    exact mode_kinetic_energy_nonneg _ _ _ hm
  have h25 : Real.sqrt (∑ j, (![3, 4] : Fin 2 → ℝ) j * ![3, 4] j) = 5 := by
    rw [Fin.sum_univ_two]
    exact sqrt_eval (by norm_num) (by norm_num)
  have hq : quad_scal (∑ i, (![3, 4] : Fin 2 → ℝ) i * ![3, 4] i / (fun _ => (1 : ℝ)) i)
      (2 * ∑ i, (![5, 5] : Fin 2 → ℝ) i * ![3, 4] i)
      (-2 * -(esY.hamiltonian 1 1 - esY.hamiltonian 0 0)) = some 0 := by
    have hA : (∑ i, (![3, 4] : Fin 2 → ℝ) i * ![3, 4] i / (fun _ => (1 : ℝ)) i)
        = 25 := by
      norm_num [Fin.sum_univ_two]
    have hB : (2 * ∑ i, (![5, 5] : Fin 2 → ℝ) i * ![3, 4] i) = 70 := by
      norm_num [Fin.sum_univ_two]
    have hC : (-2 : ℝ) * -(esY.hamiltonian 1 1 - esY.hamiltonian 0 0) = 0 := by
      rw [hH]
      norm_num
    rw [hA, hB, hC]
    unfold quad_scal
    rw [show (70 : ℝ) ^ 2 - 4 * 25 * 0 = 70 ^ 2 from by norm_num,
      Real.sqrt_sq (by norm_num : (0 : ℝ) ≤ 70)]
    rw [if_neg (by norm_num)]
    rw [if_pos (by rw [abs_of_nonneg (by norm_num), abs_of_nonpos (by norm_num)]; norm_num)]
    norm_num [Option.some.injEq]
  have hstep : hop_to_it (fun _ => (1 : ℝ)) esY 0 ![5, 5] 1
      = some (1,
          fun i => ![5, 5] i + 0 * ![3, 4] i / (fun _ => (1 : ℝ)) i,
          { esY with derivative_coupling := fun i j =>
              if i = 0 ∧ j = 1
              then fun k => ![3, 4] k / Real.sqrt (∑ j2, ![3, 4] j2 * ![3, 4] j2)
              else esY.derivative_coupling i j }) := by
    simp only [hop_to_it]
    rw [if_pos hacc]
    rw [rescale_eq _ _ _ _ hm hdir, hd, hq]
    simp only [Option.map_some']
  have h25l : Real.sqrt (25 : ℝ) = 5 := sqrt_eval (by norm_num) (by norm_num)
  refine ⟨1, _, _, hstep, ?_, ?_, ?_, rfl, rfl⟩
  · norm_num [h25l, Matrix.cons_val_zero]
  · simp [esY]
  · intro heq
    have h0 := congrFun heq 0
    norm_num [h25l, esY, Matrix.cons_val_zero] at h0

/-- The propagator built from a valid Hermitian eigendecomposition is
unitary: real eigenvalues make the diagonal factor unitary, and orthonormal
eigenvectors do the rest. -/
theorem propU_unitary {ns : ℕ} (diags : Fin ns → ℝ)
    (coeff : Matrix (Fin ns) (Fin ns) ℂ) (dt : ℝ)
    (hunit : coeffᴴ * coeff = 1) :
    propagator_U diags coeff dt * (propagator_U diags coeff dt)ᴴ = 1 := by
  have hDD : Matrix.diagonal (fun k => Complex.exp (-Complex.I * diags k * dt))
      * (Matrix.diagonal (fun k => Complex.exp (-Complex.I * diags k * dt)))ᴴ
      = (1 : Matrix (Fin ns) (Fin ns) ℂ) := by
    rw [Matrix.diagonal_conjTranspose, Matrix.diagonal_mul_diagonal]
    rw [show (fun k => Complex.exp (-Complex.I * diags k * dt)
        * (star fun k => Complex.exp (-Complex.I * diags k * dt)) k)
        = fun _ => (1 : ℂ) from ?_]
    · exact Matrix.diagonal_one
    · funext k
      simp only [Pi.star_apply, Complex.star_def, ← Complex.exp_conj, map_mul,
        map_neg, Complex.conj_I, Complex.conj_ofReal]
      rw [← Complex.exp_add]
      ring_nf
      exact Complex.exp_zero
  have hU2 : (propagator_U diags coeff dt)ᴴ
      = coeff * (Matrix.diagonal
          (fun k => Complex.exp (-Complex.I * diags k * dt)))ᴴ * coeffᴴ := by
    simp [propagator_U, Matrix.conjTranspose_mul, Matrix.mul_assoc]
  rw [hU2]
  unfold propagator_U
  set D := Matrix.diagonal (fun k => Complex.exp (-Complex.I * diags k * dt)) with hD
  calc coeff * D * coeffᴴ * (coeff * Dᴴ * coeffᴴ)
      = coeff * D * ((coeffᴴ * coeff) * (Dᴴ * coeffᴴ)) := by
        simp only [Matrix.mul_assoc]
    _ = coeff * (D * Dᴴ) * coeffᴴ := by
        rw [hunit, Matrix.one_mul]
        simp only [Matrix.mul_assoc]
    _ = coeff * coeffᴴ := by rw [hDD, Matrix.mul_one]
    _ = 1 := Matrix.mul_eq_one_comm.mp hunit

/-- Conjugation by the unitary propagator preserves the trace. -/
theorem prop_trace {ns : ℕ} (diags : Fin ns → ℝ)
    (coeff : Matrix (Fin ns) (Fin ns) ℂ) (dt : ℝ)
    (rho : Matrix (Fin ns) (Fin ns) ℂ)
    (hunit : coeffᴴ * coeff = 1) :
    (propagate_electronics diags coeff dt rho).trace = rho.trace := by
  have hUU := propU_unitary diags coeff dt hunit
  have hUU2 : (propagator_U diags coeff dt)ᴴ * propagator_U diags coeff dt = 1 :=
    Matrix.mul_eq_one_comm.mp hUU
  unfold propagate_electronics
  rw [← Matrix.mul_assoc, Matrix.trace_mul_cycle, hUU2, Matrix.one_mul]

/-- Conjugation preserves Hermiticity. -/
theorem prop_herm {ns : ℕ} (diags : Fin ns → ℝ)
    (coeff : Matrix (Fin ns) (Fin ns) ℂ) (dt : ℝ)
    (rho : Matrix (Fin ns) (Fin ns) ℂ)
    (hherm : rhoᴴ = rho) :
    (propagate_electronics diags coeff dt rho)ᴴ
      = propagate_electronics diags coeff dt rho := by
  unfold propagate_electronics
  simp only [Matrix.conjTranspose_mul, Matrix.conjTranspose_conjTranspose, hherm,
    Matrix.mul_assoc]

/-- With a single electronic state the probability vector is identically zero
(the self-hop entry is zeroed), so the stochastic hopper never fires for a
nonnegative threshold. -/
theorem hopper_single_state {nd : ℕ} (es : ElectronicStructure 1 nd)
    (rho : Matrix (Fin 1) (Fin 1) ℂ) (st : Fin 1) (lv v : Fin nd → ℝ)
    (dt zeta : ℝ) (hz : 0 ≤ zeta) :
    hopper (surface_hopping_probs es rho st lv v dt) zeta = none := by
  have hp : ∀ i : Fin 1, surface_hopping_probs es rho st lv v dt i = 0 := by
    intro i
    have h0 : i = st := Subsingleton.elim _ _
    subst h0
    simp [surface_hopping_probs]
  have hcond : decide (zeta < ∑ j ∈ Finset.Iic (0 : Fin 1),
      surface_hopping_probs es rho st lv v dt j) = false := by
    rw [decide_eq_false_iff_not]
    intro hlt
    have hzero : (∑ j ∈ Finset.Iic (0 : Fin 1),
        surface_hopping_probs es rho st lv v dt j) = 0 :=
      Finset.sum_eq_zero fun j _ => hp j
    rw [hzero] at hlt
    linarith
  unfold hopper
  rw [show List.finRange 1 = [0] from rfl]
  simp [List.find?, hcond]

/-- C3: one call to `propagate_electronics` replaces ρ by `U ρ Uᴴ` where
`U = coeff · exp(-i·diags·dt) · coeffᴴ` is built from the eigendecomposition
of `W = H - i·D(v̄)`; given that the Hermitian eigendecomposition returns real
eigenvalues (the type of `diags`) and orthonormal eigenvectors
(`coeffᴴ coeff = 1`), `U` is unitary and the update preserves `trace ρ` and
the Hermiticity of ρ; and in one iteration of the step loop no operation
other than this update writes ρ: the stepped trajectory's ρ is exactly
`propagate_electronics` of the previous ρ, whatever the hop logic did. -/
theorem propagate_electronics_unitary {ns nd : ℕ} :
    (∀ (diags : Fin ns → ℝ) (coeff : Matrix (Fin ns) (Fin ns) ℂ) (dt : ℝ)
        (rho : Matrix (Fin ns) (Fin ns) ℂ), coeffᴴ * coeff = 1 →
      propagator_U diags coeff dt * (propagator_U diags coeff dt)ᴴ = 1
      ∧ (propagate_electronics diags coeff dt rho).trace = rho.trace
      ∧ (rhoᴴ = rho → (propagate_electronics diags coeff dt rho)ᴴ
          = propagate_electronics diags coeff dt rho))
    ∧ (∀ (update : (Fin nd → ℝ) → ElectronicStructure ns nd)
        (eigh : Matrix (Fin ns) (Fin ns) ℂ → (Fin ns → ℝ) × Matrix (Fin ns) (Fin ns) ℂ)
        (mass : Fin nd → ℝ) (dt zeta : ℝ) (t t2 : Traj ns nd),
        step update eigh mass dt zeta t = some t2 →
        t2.rho = propagate_electronics (eigh (step_W update mass dt t)).1
          (eigh (step_W update mass dt t)).2 dt t.rho) := by
  constructor
  · intro diags coeff dt rho hunit
    exact ⟨propU_unitary diags coeff dt hunit, prop_trace diags coeff dt rho hunit,
      fun hherm => prop_herm diags coeff dt rho hherm⟩
  · intro update eigh mass dt zeta t t2 hstep
    simp only [step] at hstep
    obtain ⟨t4, ht4, rfl⟩ := Option.map_eq_some'.mp hstep
    show t4.rho = _
    split at ht4
    · split at ht4
      · injection ht4 with h4
        rw [← h4]
        rfl
      · exact Option.noConfusion ht4
    · injection ht4 with h4
      rw [← h4]
      rfl

/-- Witness for C3: a one-state, one-dimensional trajectory with the trivial
model and the exact eigendecomposition oracle `(0, 1)`; stepping preserves
the trace and Hermiticity of ρ and the propagator is unitary. -/
theorem propagate_electronics_unitary_witness :
    ∃ t2, step (fun _ => esT) (fun _ => (fun _ => (0 : ℝ), 1)) (fun _ => (1 : ℝ))
        0 (1 / 2) t0 = some t2
      ∧ t2.rho.trace = t0.rho.trace
      ∧ (t0.rhoᴴ = t0.rho → t2.rhoᴴ = t2.rho)
      ∧ propagator_U (fun _ : Fin 1 => (0 : ℝ)) 1 0
          * (propagator_U (fun _ : Fin 1 => (0 : ℝ)) 1 0)ᴴ = 1 := by
  have hunit : ((1 : Matrix (Fin 1) (Fin 1) ℂ))ᴴ * 1 = 1 := by simp
  rcases hstep : step (fun _ => esT) (fun _ => (fun _ => (0 : ℝ), 1))
      (fun _ => (1 : ℝ)) 0 (1 / 2) t0 with _ | t2
  · exfalso
    simp only [step] at hstep
    rw [hopper_single_state _ _ _ _ _ _ _ (by norm_num)] at hstep
    simp at hstep
  · have hframe := (@propagate_electronics_unitary 1 1).2
      (fun _ => esT) (fun _ => (fun _ => (0 : ℝ), 1)) (fun _ => (1 : ℝ))
      0 (1 / 2) t0 t2 hstep
    have h1 := (@propagate_electronics_unitary 1 1).1
      (fun _ : Fin 1 => (0 : ℝ)) 1 0 t0.rho hunit
    refine ⟨t2, rfl, ?_, ?_, h1.1⟩
    · rw [hframe]
      exact h1.2.1
    · intro hherm
      rw [hframe]
      exact h1.2.2 hherm

/-- C4: on every step, for every non-active target state the instantaneous
hop probability equals
`max 0 (2·Re ρ[active,t] · coupling[active,t] · dt / Re ρ[active,active])`
where the coupling is the derivative-coupling tensor contracted with the
interpolated velocity; every entry of the probability vector is nonnegative
and the active (self-hop) entry is exactly 0. -/
theorem surface_hopping_probs_formula {ns nd : ℕ} (es : ElectronicStructure ns nd)
    (rho : Matrix (Fin ns) (Fin ns) ℂ) (state : Fin ns)
    (lv v : Fin nd → ℝ) (dt : ℝ) :
    (∀ t, t ≠ state → surface_hopping_probs es rho state lv v dt t
      = max 0 (2 * (rho state t).re
          * NAC_matrix es (fun i => 0.5 * (lv i + v i)) state t * dt
          / (rho state state).re))
    ∧ surface_hopping_probs es rho state lv v dt state = 0
    ∧ (∀ t, 0 ≤ surface_hopping_probs es rho state lv v dt t) := by
  refine ⟨fun t ht => ?_, ?_, fun t => ?_⟩
  · simp only [surface_hopping_probs]
    rw [Function.update_noteq ht]
    rw [max_comm]
    norm_num
  · simp only [surface_hopping_probs, Function.update_same]
    simp
  · simp only [surface_hopping_probs]
    exact le_max_right _ _

/-- Witness for C4 at a concrete two-state input. -/
theorem surface_hopping_probs_formula_witness :
    surface_hopping_probs esZ rhoZ 0 (fun _ : Fin 1 => (1 : ℝ)) (fun _ => 1) 1 1
      = max 0 (2 * (rhoZ 0 1).re
          * NAC_matrix esZ
              (fun i => 0.5 * ((fun _ : Fin 1 => (1 : ℝ)) i
                + (fun _ : Fin 1 => (1 : ℝ)) i)) 0 1 * 1
          / (rhoZ 0 0).re)
    ∧ surface_hopping_probs esZ rhoZ 0 (fun _ : Fin 1 => (1 : ℝ)) (fun _ => 1) 1 0 = 0
    ∧ 0 ≤ surface_hopping_probs esZ rhoZ 0 (fun _ : Fin 1 => (1 : ℝ)) (fun _ => 1) 1 1 :=
  ⟨(surface_hopping_probs_formula esZ rhoZ 0 _ _ 1).1 1 (by decide),
   (surface_hopping_probs_formula esZ rhoZ 0 _ _ 1).2.1,
   (surface_hopping_probs_formula esZ rhoZ 0 _ _ 1).2.2 1⟩

/-- C5 (amended): the even-sampling hopper updates the accumulated
probability by `acc = 1 - (1 - prob_cum)·exp(-Σ probs)`; whenever `acc`
exceeds the scheduled threshold `zeta` it returns exactly one descriptor per
non-active state (weight `probs[i]/Σprobs`, the current `zeta`, `acc`, and
the spawned subtree), the trajectory's `zeta` advances to the next scheduled
threshold, and the probability accumulator is returned UNCHANGED (the source
does not reset it — the claim's "is reset" is wrong); if `acc` does not
exceed `zeta`, no descriptors are returned and the accumulator is stored as
`acc`. -/
theorem hopper_even_fires {ns : ℕ} (state : Fin ns) (probs : Fin ns → ℝ)
    (prob_cum zeta : ℝ) (stack : SpawnStack ℝ) (rand : ℝ)
    (sub stack2 : SpawnStack ℝ) (z2 : ℝ) :
    (1 - (1 - prob_cum) * Real.exp (-∑ i, Function.update probs state 0 i) > zeta →
      stack.spawn = some sub → stack.next_zeta rand = some (z2, stack2) →
      hopper_even state probs prob_cum zeta stack rand
        = some (((List.finRange ns).filter (fun i => decide (i ≠ state))).map
            (fun i => HopTargetES.mk i
              (Function.update probs state 0 i / ∑ j, Function.update probs state 0 j)
              zeta
              (1 - (1 - prob_cum)
                * Real.exp (-∑ j, Function.update probs state 0 j))
              sub),
            prob_cum, z2, stack2))
    ∧ (¬ (1 - (1 - prob_cum) * Real.exp (-∑ i, Function.update probs state 0 i)
          > zeta) →
      hopper_even state probs prob_cum zeta stack rand
        = some ([],
            1 - (1 - prob_cum) * Real.exp (-∑ i, Function.update probs state 0 i),
            zeta, stack)) := by
  constructor
  · intro hgt hsp hnz
    simp only [hopper_even]
    rw [if_pos hgt, hsp, hnz]
  · intro hle
    simp only [hopper_even]
    rw [if_neg hle]

/-- Witness for C5: a concrete firing step (two states, active 0, probability
1/5 on state 1, accumulator 1/2, threshold 1/4) on `stackC5`. -/
theorem hopper_even_fires_witness :
    hopper_even 0 ![0, 1 / 5] (1 / 2) (1 / 4) stackC5 0
      = some ((((List.finRange 2).filter (fun i => decide (i ≠ (0 : Fin 2)))).map
          (fun i => HopTargetES.mk i
            (Function.update (![0, 1 / 5] : Fin 2 → ℝ) 0 0 i
              / ∑ j, Function.update (![0, 1 / 5] : Fin 2 → ℝ) 0 0 j)
            (1 / 4)
            (1 - (1 - 1 / 2)
              * Real.exp (-∑ j, Function.update (![0, 1 / 5] : Fin 2 → ℝ) 0 0 j))
            ⟨none, 1 * (1 / 2), none, none⟩)),
          1 / 2, 3 / 4, { stackC5 with izeta := some 1, zeta := some (3 / 4) }) := by
  have hsum : (∑ i, Function.update (![0, 1 / 5] : Fin 2 → ℝ) 0 0 i) = 1 / 5 := by
    rw [Fin.sum_univ_two, Function.update_same, Function.update_noteq (by decide)]
    norm_num [Matrix.cons_val_one, Matrix.head_cons]
  have hacc : 1 - (1 - (1 / 2 : ℝ))
      * Real.exp (-∑ i, Function.update (![0, 1 / 5] : Fin 2 → ℝ) 0 0 i) > 1 / 4 := by
    rw [hsum]
    have hexp : Real.exp (-(1 / 5 : ℝ)) ≤ 1 := Real.exp_le_one_iff.mpr (by norm_num)
    have hexp2 : 0 < Real.exp (-(1 / 5 : ℝ)) := Real.exp_pos _
    nlinarith
  exact (hopper_even_fires 0 ![0, 1 / 5] (1 / 2) (1 / 4) stackC5 0
    ⟨none, 1 * (1 / 2), none, none⟩
    { stackC5 with izeta := some 1, zeta := some (3 / 4) } (3 / 4)).1 hacc rfl rfl

/-- C5 counterexample: on the concrete firing step above the hopper returns a
non-empty descriptor list while the stored accumulator component equals the
OLD value 1/2 — it is neither reset to 0 nor updated to the new accumulated
value, refuting "its own probability accumulator is reset". -/
theorem hopper_even_not_reset_counterexample :
    ∃ ts stack2, hopper_even 0 ![0, 1 / 5] (1 / 2) (1 / 4) stackC5 0
        = some (ts, 1 / 2, 3 / 4, stack2)
      ∧ ts ≠ []
      ∧ (1 / 2 : ℝ) ≠ 0
      ∧ (1 / 2 : ℝ) ≠ 1 - (1 - 1 / 2)
          * Real.exp (-∑ i, Function.update (![0, 1 / 5] : Fin 2 → ℝ) 0 0 i) := by
  have hsum : (∑ i, Function.update (![0, 1 / 5] : Fin 2 → ℝ) 0 0 i) = 1 / 5 := by
    rw [Fin.sum_univ_two, Function.update_same, Function.update_noteq (by decide)]
    norm_num [Matrix.cons_val_one, Matrix.head_cons]
  have hacc : 1 - (1 - (1 / 2 : ℝ))
      * Real.exp (-∑ i, Function.update (![0, 1 / 5] : Fin 2 → ℝ) 0 0 i) > 1 / 4 := by
    rw [hsum]
    have hexp : Real.exp (-(1 / 5 : ℝ)) ≤ 1 := Real.exp_le_one_iff.mpr (by norm_num)
    have hexp2 : 0 < Real.exp (-(1 / 5 : ℝ)) := Real.exp_pos _
    nlinarith
  have heval : hopper_even 0 ![0, 1 / 5] (1 / 2) (1 / 4) stackC5 0
      = some ((((List.finRange 2).filter (fun i => decide (i ≠ (0 : Fin 2)))).map
          (fun i => HopTargetES.mk i
            (Function.update (![0, 1 / 5] : Fin 2 → ℝ) 0 0 i
              / ∑ j, Function.update (![0, 1 / 5] : Fin 2 → ℝ) 0 0 j)
            (1 / 4)
            (1 - (1 - 1 / 2)
              * Real.exp (-∑ j, Function.update (![0, 1 / 5] : Fin 2 → ℝ) 0 0 j))
            ⟨none, 1 * (1 / 2), none, none⟩)),
          1 / 2, 3 / 4, { stackC5 with izeta := some 1, zeta := some (3 / 4) }) := by
    simp only [hopper_even]
    rw [if_pos hacc,
      show stackC5.spawn = some ⟨none, 1 * (1 / 2), none, none⟩ from rfl,
      show stackC5.next_zeta 0
        = some (3 / 4, { stackC5 with izeta := some 1, zeta := some (3 / 4) })
        from rfl]
  refine ⟨_, _, heval, ?_, by norm_num, ?_⟩
  · rw [show (List.finRange 2).filter (fun i => decide (i ≠ (0 : Fin 2))) = [1]
      from rfl]
    simp
  · rw [hsum]
    intro h
    have hone : Real.exp (-(1 / 5 : ℝ)) = 1 := by linarith
    rw [Real.exp_eq_one_iff] at hone
    norm_num at hone

end

end Mudslide
